import Mathlib

/-!
Verification of the PRT-7 frame-decoding engine (`src/main.cpp`).

The C++ program is embedded shallowly:
* the circular rotor list (`RotorDeMapeo`) becomes a `List Char` read
  forward from `head`; moving `head` forward is `List.rotate`;
* the doubly linked accumulator (`ListaDeCarga`) becomes a `List Char`;
* `parseLinea` (with its `strtok`/`trim`/`atoi` helpers) becomes a pure
  function from the line's characters to an optional frame plus the
  optional diagnostic the C function prints itself;
* the `main` processing loop becomes a fold over the list of lines.
-/

namespace PRT7

/-- C `isspace` in the default locale: space, \t, \n, \v, \f, \r. -/
def isSpaceC (c : Char) : Bool :=
  c = ' ' || c = '\t' || c = '\n' || c = Char.ofNat 11 || c = Char.ofNat 12 || c = '\r'

/-- Left trim of `trim` (src/main.cpp lines 515-525): drop leading whitespace. -/
def trimIzq (s : List Char) : List Char :=
  s.dropWhile isSpaceC

/-- Right trim of `trim` (src/main.cpp lines 521-524): drop trailing whitespace. -/
def trimDer : List Char → List Char
  | [] => []
  | c :: rest =>
    match trimDer rest with
    | [] => if isSpaceC c then [] else [c]
    | r => c :: r

/-- `trim` (src/main.cpp lines 515-525): strip whitespace at both ends. -/
def trimC (s : List Char) : List Char :=
  trimDer (trimIzq s)

/-- Accumulating worker for `strtok(buffer, ",")`: successive calls return the
maximal nonempty runs of non-comma characters. `cur` holds the (reversed)
characters of the run being scanned. -/
def tokAux : List Char → List Char → List (List Char)
  | [], cur => if cur.isEmpty then [] else [cur.reverse]
  | c :: rest, cur =>
    if c = ',' then
      if cur.isEmpty then tokAux rest [] else cur.reverse :: tokAux rest []
    else
      tokAux rest (c :: cur)

/-- All tokens `strtok` with delimiter `","` would yield on `s`, in order
(src/main.cpp lines 546, 553, 578): empty fields are skipped. -/
def tokeniza (s : List Char) : List (List Char) :=
  tokAux s []

/-- C `tolower` on ASCII, as used by `strcasecmp`. -/
def toLowerC (c : Char) : Char :=
  if 'A' ≤ c ∧ c ≤ 'Z' then Char.ofNat (c.toNat + 32) else c

/-- `strcasecmp(a, b) == 0` (src/main.cpp line 561). -/
def eqNoCase (a b : List Char) : Bool :=
  a.map toLowerC == b.map toLowerC

/-- `arg[0] == ch` guarded against the empty string (src/main.cpp line 561). -/
def primeroEs (s : List Char) (ch : Char) : Bool :=
  match s with
  | [] => false
  | c :: _ => c = ch

/-- Digit run of `atoi`: consume decimal digits, accumulating the value. -/
def atoiDigits : List Char → Nat → Nat
  | [], acc => acc
  | c :: rest, acc =>
    if c.isDigit then atoiDigits rest (acc * 10 + (c.toNat - 48)) else acc

/-- C `atoi` (src/main.cpp line 584): skip whitespace, optional sign, then the
longest run of leading digits; `0` when no digits are present. -/
def atoiC (s : List Char) : Int :=
  match s.dropWhile isSpaceC with
  | '-' :: rest => -(atoiDigits rest 0 : Int)
  | '+' :: rest => (atoiDigits rest 0 : Int)
  | t => (atoiDigits t 0 : Int)

/-- The frames of the protocol: `TramaLoad` / `TramaMap` (src/main.cpp). -/
inductive Trama where
  | load (c : Char)
  | map (n : Int)
deriving DecidableEq

/-- The diagnostics `parseLinea` itself prints (src/main.cpp lines 555, 580, 588). -/
inductive Diag where
  | missingArgument
  | unknownFrameType (tok : List Char)
deriving DecidableEq

/-- Result of `parseLinea`: the frame built (if any) and the diagnostic the
function itself printed (if any). -/
structure SalidaParse where
  frame : Option Trama
  diag : Option Diag
deriving DecidableEq

/-- The Load-argument handling of `parseLinea` (src/main.cpp lines 558-574):
trim the raw field, recognize the literal word `Space` case-insensitively,
otherwise take the first character; an empty trimmed field yields nothing. -/
def parseArgCarga (a : List Char) : SalidaParse :=
  if (primeroEs (trimC a) 'S' || primeroEs (trimC a) 's')
      && eqNoCase (trimC a) ['S', 'p', 'a', 'c', 'e'] then
    ⟨some (.load ' '), none⟩
  else
    match trimC a with
    | [] => ⟨none, none⟩
    | c :: _ => ⟨some (.load c), none⟩

/-- Dispatch on the token list produced by `strtok` inside `parseLinea`
(src/main.cpp lines 546-591). -/
def parseTokens : List (List Char) → SalidaParse
  | [] => ⟨none, none⟩
  | tok :: rest =>
    let token := trimC tok
    if token.isEmpty then ⟨none, none⟩
    else if token = ['L'] ∨ token = ['l'] then
      match rest with
      | [] => ⟨none, some .missingArgument⟩
      | a :: _ => parseArgCarga a
    else if token = ['M'] ∨ token = ['m'] then
      match rest with
      | [] => ⟨none, some .missingArgument⟩
      | a :: _ => ⟨some (.map (atoiC (trimC a))), none⟩
    else ⟨none, some (.unknownFrameType token)⟩

/-- `parseLinea` on a whole (already `\r\n`-stripped) line, including the
127-byte `strncpy` truncation and the initial `trim` (src/main.cpp 537-543). -/
def parseBuffer (buffer : List Char) : SalidaParse :=
  if buffer.isEmpty then ⟨none, none⟩
  else parseTokens (tokeniza buffer)

/-- `parseLinea` (src/main.cpp lines 537-591). -/
def parseLinea (lineaC : List Char) : SalidaParse :=
  parseBuffer (trimC (lineaC.take 127))

/-- The rotor alphabet `A..Z` built by the `RotorDeMapeo` constructor
(src/main.cpp lines 211-231); the list is read forward from `head`. -/
def alfabeto : List Char :=
  (List.range 26).map (fun i => Char.ofNat (65 + i))

/-- The `effective` shift computed by `RotorDeMapeo::rotar` (src/main.cpp
lines 259-260): C `%` is the truncating remainder (`Int.tmod`), and a
negative result is fixed up by adding the size. -/
def efectivo (N : Int) (L : Nat) : Nat :=
  (if N.tmod (L : Int) < 0 then N.tmod (L : Int) + (L : Int) else N.tmod (L : Int)).toNat

/-- `RotorDeMapeo::rotar` (src/main.cpp lines 255-269): `head` moves forward
`efectivo N size` nodes of the circular list. -/
def rotar (N : Int) (r : List Char) : List Char :=
  if r.length ≤ 1 then r
  else r.rotate (efectivo N r.length)

/-- `RotorDeMapeo::getMapeo` (src/main.cpp lines 280-297): spaces unchanged,
lowercase uppercased, non-letters returned as-is, letters looked up by walking
`index` nodes forward from `head` (circular, hence the `% r.length`). -/
def getMapeo (r : List Char) (inC : Char) : Char :=
  if inC = ' ' then ' '
  else
    let c := if 'a' ≤ inC ∧ inC ≤ 'z' then Char.ofNat (inC.toNat - 97 + 65) else inC
    if c < 'A' ∨ 'Z' < c then c
    else r.getD ((c.toNat - 65) % r.length) c

/-- `ListaDeCarga::insertarAlFinal` (src/main.cpp lines 152-161). -/
def insertarAlFinal (dato : Char) (l : List Char) : List Char :=
  l ++ [dato]

/-- The engine state of `main`: the rotor list and the accumulator list. -/
structure EstadoMotor where
  rotor : List Char
  carga : List Char
deriving DecidableEq

/-- Fresh state built at the top of `main`: rotor at offset 0, empty list. -/
def estadoInicial : EstadoMotor :=
  ⟨alfabeto, []⟩

/-- `TramaLoad::procesar` / `TramaMap::procesar` (src/main.cpp 340-352, 385-389). -/
def procesarTrama : Trama → EstadoMotor → EstadoMotor
  | .load c, s => { s with carga := insertarAlFinal (getMapeo s.rotor c) s.carga }
  | .map n, s => { s with rotor := rotar n s.rotor }

/-- One iteration of the `main` loop (src/main.cpp lines 650-666): parse the
line; a null frame is skipped, otherwise the frame is processed. -/
def procesarLinea (l : List Char) (s : EstadoMotor) : EstadoMotor :=
  match (parseLinea l).frame with
  | none => s
  | some t => procesarTrama t s

/-- The whole `main` loop over the line source. -/
def procesarLineas (ls : List (List Char)) (s : EstadoMotor) : EstadoMotor :=
  ls.foldl (fun s l => procesarLinea l s) s

/-- Rotor state reached from the fresh rotor by a sequence of `rotar` calls. -/
def rotorTras (ns : List Int) : List Char :=
  ns.foldl (fun r n => rotar n r) alfabeto

/-! ### Helper lemmas about the truncating remainder and `rotar` -/

theorem neg_tmod_left (a b : Int) : (-a).tmod b = -(a.tmod b) := by
  simp only [Int.tmod_def, Int.neg_tdiv]
  ring

theorem tmod_norm_emod (n : Int) (L : Nat) (hL : 0 < L) :
    (if n.tmod (L : Int) < 0 then n.tmod (L : Int) + (L : Int) else n.tmod (L : Int))
      = n % (L : Int) := by
  have hL2 : (0 : Int) < (L : Int) := by exact_mod_cast hL
  rcases le_or_lt 0 n with hn | hn
  · rw [Int.tmod_eq_emod hn (le_of_lt hL2)]
    have h1 : 0 ≤ n % (L : Int) := Int.emod_nonneg n (by omega)
    simp [not_lt.mpr h1]
  · have h1 : (-n).tmod (L : Int) = (-n) % (L : Int) :=
      Int.tmod_eq_emod (by omega) (le_of_lt hL2)
    have h2 : n.tmod (L : Int) = -((-n).tmod (L : Int)) := by
      rw [neg_tmod_left, Int.neg_neg]
    have h3 : 0 ≤ (-n) % (L : Int) := Int.emod_nonneg (-n) (by omega)
    have h4 : (-n) % (L : Int) < (L : Int) := Int.emod_lt_of_pos (-n) hL2
    have h5 : (L : Int) * ((-n) / (L : Int)) + (-n) % (L : Int) = -n :=
      Int.ediv_add_emod (-n) (L : Int)
    rcases eq_or_lt_of_le h3 with h0 | h0
    · -- the remainder of -n is zero, so n itself is a multiple of L
      have hdvd : (L : Int) ∣ n := Int.dvd_neg.mp (Int.dvd_of_emod_eq_zero h0.symm)
      have hz : n % (L : Int) = 0 := Int.emod_eq_zero_of_dvd hdvd
      rw [h2, h1, ← h0]
      simp [hz]
    · have hmod : n % (L : Int) = (L : Int) - (-n) % (L : Int) := by
        have hn' : n = (-((-n) % (L : Int))) + (L : Int) * (-((-n) / (L : Int))) := by
          have hq : (L : Int) * (-((-n) / (L : Int))) = -((L : Int) * ((-n) / (L : Int))) := by
            ring
          rw [hq]
          linarith [h5]
        conv_lhs => rw [hn']
        rw [Int.add_mul_emod_self_left, Int.neg_emod]
        exact Int.emod_eq_of_lt (by omega) (by omega)
      rw [h2, h1]
      have hneg : -((-n) % (L : Int)) < 0 := by omega
      rw [if_pos hneg]
      omega

theorem efectivo_eq_emod (n : Int) (L : Nat) (hL : 0 < L) :
    (efectivo n L : Int) = n % (L : Int) := by
  unfold efectivo
  rw [tmod_norm_emod n L hL]
  exact Int.toNat_of_nonneg (Int.emod_nonneg n (by omega))

theorem length_rotar (n : Int) (r : List Char) : (rotar n r).length = r.length := by
  unfold rotar
  split
  · rfl
  · exact List.length_rotate r _

theorem efectivo_26 (n : Int) : (efectivo n 26 : Int) = (n % 26 + 26) % 26 := by
  rw [efectivo_eq_emod n 26 (by norm_num)]
  omega

theorem alfabeto_length : alfabeto.length = 26 := by decide

theorem rotar_alfabeto_rotate (n : Int) (k : Nat) :
    rotar n (alfabeto.rotate k) = alfabeto.rotate (k + efectivo n 26) := by
  unfold rotar
  rw [List.length_rotate, alfabeto_length]
  rw [if_neg (by norm_num)]
  exact List.rotate_rotate alfabeto k (efectivo n 26)

theorem rotar_of_length_gt (n : Int) (r : List Char) (h1 : 1 < r.length) :
    rotar n r = r.rotate (efectivo n r.length) := by
  unfold rotar
  rw [if_neg (not_le.mpr h1)]

theorem rotar_rotar_neg (n : Int) (r : List Char) : rotar (-n) (rotar n r) = r := by
  rcases le_or_lt r.length 1 with h1 | h1
  · unfold rotar
    rw [if_pos h1, if_pos h1]
  · have hL : (0 : Int) < (r.length : Int) := by
      exact_mod_cast Nat.lt_of_lt_of_le Nat.zero_lt_one (le_of_lt h1)
    rw [rotar_of_length_gt n r h1]
    have houter : rotar (-n) (r.rotate (efectivo n r.length))
        = (r.rotate (efectivo n r.length)).rotate (efectivo (-n) r.length) := by
      have := rotar_of_length_gt (-n) (r.rotate (efectivo n r.length))
        (by rw [List.length_rotate]; exact h1)
      rwa [List.length_rotate] at this
    rw [houter, List.rotate_rotate]
    set t := n.tmod (r.length : Int) with ht
    have hneg : (-n).tmod (r.length : Int) = -t := by rw [neg_tmod_left]
    have htlt : t < (r.length : Int) := Int.tmod_lt_of_pos n hL
    have htgt : -(r.length : Int) < t := by
      have h := Int.tmod_lt_of_pos (-n) hL
      rw [hneg] at h
      omega
    rcases lt_trichotomy t 0 with hlt | heq | hgt
    · have he1 : efectivo n r.length = ((t + (r.length : Int)).toNat) := by
        unfold efectivo
        rw [← ht, if_pos hlt]
      have he2 : efectivo (-n) r.length = ((-t).toNat) := by
        unfold efectivo
        rw [hneg, if_neg (by omega)]
      rw [he1, he2]
      have hsum : (t + (r.length : Int)).toNat + (-t).toNat = r.length := by omega
      rw [hsum, List.rotate_length]
    · have he1 : efectivo n r.length = 0 := by
        unfold efectivo
        rw [← ht, heq]
        simp
      have he2 : efectivo (-n) r.length = 0 := by
        unfold efectivo
        rw [hneg, heq]
        simp
      rw [he1, he2, List.rotate_zero]
    · have he1 : efectivo n r.length = t.toNat := by
        unfold efectivo
        rw [← ht, if_neg (by omega)]
      have he2 : efectivo (-n) r.length = ((-t + (r.length : Int)).toNat) := by
        unfold efectivo
        rw [hneg, if_pos (by omega)]
      rw [he1, he2]
      have hsum : t.toNat + (-t + (r.length : Int)).toNat = r.length := by omega
      rw [hsum, List.rotate_length]

/-! ### Helper lemmas about `trim` and `strtok` -/

theorem trimIzq_cons_of_not_space (c : Char) (s : List Char) (h : isSpaceC c = false) :
    trimIzq (c :: s) = c :: s := by
  simp [trimIzq, List.dropWhile_cons, h]

theorem trimDer_cons_eq (c : Char) (s : List Char) :
    trimDer (c :: s)
      = if trimDer s = [] then (if isSpaceC c then [] else [c]) else c :: trimDer s := by
  cases htd : trimDer s with
  | nil => simp [trimDer, htd]
  | cons a l => simp [trimDer, htd]

theorem trimDer_cons_of_not_space (c : Char) (s : List Char) (h : isSpaceC c = false) :
    trimDer (c :: s) = c :: trimDer s := by
  rw [trimDer_cons_eq]
  split_ifs with h1 h2
  · simp [h] at h2
  · rw [h1]
  · rfl

theorem trimDer_shape (x : Char) (xs : List Char) :
    trimDer (x :: xs) = [] ∨ ∃ ys, trimDer (x :: xs) = x :: ys := by
  rw [trimDer_cons_eq]
  split_ifs with h1 h2
  · exact Or.inl rfl
  · exact Or.inr ⟨[], rfl⟩
  · exact Or.inr ⟨trimDer xs, rfl⟩

theorem trimIzq_head_not_space (s : List Char) (c : Char) (rest : List Char)
    (h : trimIzq s = c :: rest) : isSpaceC c = false := by
  induction s with
  | nil => simp [trimIzq] at h
  | cons a t ih =>
    by_cases ha : isSpaceC a
    · apply ih
      simpa [trimIzq, List.dropWhile_cons, ha] using h
    · rw [trimIzq_cons_of_not_space a t (by simpa using ha)] at h
      injection h with h1 h2
      rw [← h1]
      simpa using ha

theorem trimC_head_not_space (s : List Char) (c : Char) (rest : List Char)
    (h : trimC s = c :: rest) : isSpaceC c = false := by
  unfold trimC at h
  cases hiz : trimIzq s with
  | nil => rw [hiz] at h; simp [trimDer] at h
  | cons x xs =>
    rw [hiz] at h
    rcases trimDer_shape x xs with hsh | ⟨ys, hsh⟩
    · rw [hsh] at h; cases h
    · rw [hsh] at h
      injection h with h1 h2
      have hx := trimIzq_head_not_space s x xs hiz
      rw [← h1]
      exact hx

theorem mem_trimDer (s : List Char) (x : Char) (h : x ∈ trimDer s) : x ∈ s := by
  induction s with
  | nil => simp [trimDer] at h
  | cons a t ih =>
    rw [trimDer_cons_eq] at h
    split_ifs at h with h1 h2
    · simp at h
    · simp at h
      simp [h]
    · rcases List.mem_cons.mp h with h | h
      · simp [h]
      · exact List.mem_cons_of_mem a (ih h)

theorem mem_trimC (s : List Char) (x : Char) (h : x ∈ trimC s) : x ∈ s := by
  have h1 : x ∈ trimIzq s := mem_trimDer _ x h
  exact (List.dropWhile_sublist isSpaceC).mem h1

theorem tokAux_nil_eq (cur : List Char) :
    tokAux [] cur = if cur.isEmpty then [] else [cur.reverse] := rfl

theorem tokAux_cons_eq (c : Char) (rest cur : List Char) :
    tokAux (c :: rest) cur
      = if c = ',' then
          (if cur.isEmpty then tokAux rest [] else cur.reverse :: tokAux rest [])
        else tokAux rest (c :: cur) := rfl

theorem mem_tokAux_no_comma (s : List Char) :
    ∀ cur : List Char, (',' : Char) ∉ cur → ∀ t ∈ tokAux s cur, (',' : Char) ∉ t := by
  induction s with
  | nil =>
    intro cur hcur t ht
    rw [tokAux_nil_eq] at ht
    split_ifs at ht with hc
    · simp at ht
    · simp at ht
      subst ht
      simpa using hcur
  | cons c rest ih =>
    intro cur hcur t ht
    rw [tokAux_cons_eq] at ht
    split_ifs at ht with hc hce
    · exact ih [] (by simp) t ht
    · rcases List.mem_cons.mp ht with h | h
      · subst h
        simpa using hcur
      · exact ih [] (by simp) t h
    · refine ih (c :: cur) ?_ t ht
      intro hmem
      rcases List.mem_cons.mp hmem with h | h
      · exact hc h.symm
      · exact hcur h

theorem tokeniza_no_comma (s : List Char) (t : List Char) (ht : t ∈ tokeniza s) :
    (',' : Char) ∉ t :=
  mem_tokAux_no_comma s [] (by simp) t ht

/-! ### Reachable rotor states -/

theorem rotorTras_foldl_rotate (ns : List Int) :
    ∀ k : Nat, ∃ k2, k2 < 26 ∧
      ns.foldl (fun r n => rotar n r) (alfabeto.rotate k) = alfabeto.rotate k2 := by
  induction ns with
  | nil =>
    intro k
    refine ⟨k % 26, ?_, ?_⟩
    · have : (0 : Nat) < 26 := by norm_num
      exact Nat.mod_lt k this
    · rw [List.foldl_nil, ← alfabeto_length, List.rotate_mod]
  | cons n ns ih =>
    intro k
    rw [List.foldl_cons, rotar_alfabeto_rotate]
    exact ih (k + efectivo n 26)

theorem rotorTras_rotate (ns : List Int) :
    ∃ k, k < 26 ∧ rotorTras ns = alfabeto.rotate k := by
  have h := rotorTras_foldl_rotate ns 0
  rcases h with ⟨k2, hk2, hfold⟩
  refine ⟨k2, hk2, ?_⟩
  rw [rotorTras, ← hfold, List.rotate_zero]

theorem getMapeo_perm_fin (k : Fin 26) :
    ((alfabeto.map (getMapeo (alfabeto.rotate k.val))).Perm alfabeto) := by
  revert k
  decide

/-! ### The accumulator as the sequence of decoded symbols -/

/-- Modelled from the spec: the sequence of rotor `map` outputs for the `Load`
frames in arrival order, each taken at the rotor state current when that frame
is processed. Written from the spec's words for the refinement comparison with
the engine fold. -/
def salidasEsperadas (r : List Char) : List Trama → List Char
  | [] => []
  | .load c :: ts => getMapeo r c :: salidasEsperadas r ts
  | .map n :: ts => salidasEsperadas (rotar n r) ts

theorem foldl_procesarTrama_carga (ts : List Trama) :
    ∀ (r acc : List Char),
      (ts.foldl (fun s t => procesarTrama t s) ⟨r, acc⟩).carga
        = acc ++ salidasEsperadas r ts := by
  induction ts with
  | nil =>
    intro r acc
    simp [salidasEsperadas]
  | cons t ts ih =>
    intro r acc
    cases t with
    | load c =>
      rw [List.foldl_cons]
      show (ts.foldl (fun s t => procesarTrama t s)
        ⟨r, insertarAlFinal (getMapeo r c) acc⟩).carga = _
      rw [ih r (insertarAlFinal (getMapeo r c) acc)]
      simp [insertarAlFinal, salidasEsperadas]
    | map n =>
      rw [List.foldl_cons]
      show (ts.foldl (fun s t => procesarTrama t s) ⟨rotar n r, acc⟩).carga = _
      rw [ih (rotar n r) acc]
      rfl

/-! ### Claim theorems -/

/-- C1: feeding the engine the lines `L,H`, `L,O`, `L,L`, `M,2`, `L,A`,
`L,Space`, `L,W`, starting from a fresh rotor (offset 0) and an empty
accumulator, leaves exactly `H`, `O`, `L`, `C`, space, `Y` in the accumulator,
in that order: the `rotate(2)` affects only the Load frames after it. -/
theorem rotacion_solo_afecta_tramas_posteriores :
    (procesarLineas
      [['L', ',', 'H'], ['L', ',', 'O'], ['L', ',', 'L'], ['M', ',', '2'],
       ['L', ',', 'A'], ['L', ',', 'S', 'p', 'a', 'c', 'e'], ['L', ',', 'W']]
      estadoInicial).carga = ['H', 'O', 'L', 'C', ' ', 'Y'] := by
  decide

/-- C2: for every rotor state reachable by a sequence of rotate calls, the map
restricted to the letters `A`–`Z` is a bijection onto `A`–`Z` (the image of the
alphabet is a permutation of the alphabet), the space character maps to itself,
and any character that is neither an ASCII letter (after uppercasing `a`–`z`)
nor space is returned unchanged. -/
theorem mapeo_biyectivo_en_alcanzables (ns : List Int) :
    ((alfabeto.map (getMapeo (rotorTras ns))).Perm alfabeto)
    ∧ getMapeo (rotorTras ns) ' ' = ' '
    ∧ ∀ c : Char, c ≠ ' ' →
        ¬(('A' ≤ c ∧ c ≤ 'Z') ∨ ('a' ≤ c ∧ c ≤ 'z')) →
        getMapeo (rotorTras ns) c = c := by
  refine ⟨?_, ?_, ?_⟩
  · rcases rotorTras_rotate ns with ⟨k, hk, hrw⟩
    rw [hrw]
    exact getMapeo_perm_fin ⟨k, hk⟩
  · simp [getMapeo]
  · intro c h1 h2
    have hlow : ¬('a' ≤ c ∧ c ≤ 'z') := fun hc => h2 (Or.inr hc)
    have hup : ¬('A' ≤ c ∧ c ≤ 'Z') := fun hc => h2 (Or.inl hc)
    have hout : c < 'A' ∨ 'Z' < c := by
      rcases not_and_or.mp hup with h | h
      · exact Or.inl (not_le.mp h)
      · exact Or.inr (not_le.mp h)
    simp only [getMapeo, if_neg h1, if_neg hlow, if_pos hout]

/-- Witness for `mapeo_biyectivo_en_alcanzables` at the rotation sequence
`[2]` and the non-letter character `?`. -/
theorem mapeo_biyectivo_en_alcanzables_witness :
    getMapeo (rotorTras [2]) '?' = '?' :=
  (mapeo_biyectivo_en_alcanzables [2]).2.2 '?' (by decide) (by decide)

/-- C3: `rotar n` on a rotor at offset `k` advances the offset by exactly
`((n % 26) + 26) % 26` positions (true modulo, normalized into `[0,26)`), and
in particular `rotar (-2)` from offset 0 leaves the rotor at offset 24. -/
theorem rotar_avanza_modulo_normalizado :
    (∀ (n : Int) (k : Nat),
      rotar n (alfabeto.rotate k) = alfabeto.rotate (k + ((n % 26 + 26) % 26).toNat))
    ∧ rotar (-2) alfabeto = alfabeto.rotate 24 := by
  constructor
  · intro n k
    rw [rotar_alfabeto_rotate]
    congr 1
    have h := efectivo_26 n
    omega
  · decide

/-- C4: `rotar n` followed by `rotar (-n)` restores a rotor state whose map
output equals the original for every input character, for every starting rotor
state and every integer `n`. -/
theorem rotar_invertible (n : Int) (r : List Char) (c : Char) :
    getMapeo (rotar (-n) (rotar n r)) c = getMapeo r c := by
  rw [rotar_rotar_neg]

/-- C5: for every interleaved sequence of Load and Map frames, the final
accumulator equals the starting accumulator followed by the rotor map outputs
of the Load characters in arrival order, each computed with the rotor state
current at that frame; in particular the accumulator is append-only. -/
theorem carga_es_salidas_en_orden (ts : List Trama) (r acc : List Char) :
    (ts.foldl (fun s t => procesarTrama t s) ⟨r, acc⟩).carga
      = acc ++ salidasEsperadas r ts :=
  foldl_procesarTrama_carga ts r acc

/-! ### Parser claim theorems -/

theorem tokeniza_m_coma (u : List Char) :
    tokeniza ('M' :: ',' :: u) = ['M'] :: tokAux u [] := rfl

theorem tokAux_coma_nil (u : List Char) : tokAux (',' :: u) [] = tokAux u [] := rfl

/-- Counterexample to C6 as stated: on `M,,5` the parser does not take
everything after the first comma as the argument; `strtok` skips the empty
field, so the delta is 5, not 0. -/
theorem parse_m_comas_contraejemplo :
    (parseLinea ['M', ',', ',', '5']).frame = some (.map 5)
    ∧ (parseLinea ['M', ',', ',', '5']).frame ≠ some (.map 0) := by
  decide

/-- C6 (amended): for an `M` line the argument is the next nonempty
comma-delimited field after the type token (consecutive commas collapse, so
`M,,5` and `M,5` parse identically), and that field is parsed with the lenient
numeric-prefix parse; so `M,,5` yields delta 5 and `M,2,3` yields delta 2. -/
theorem parse_m_campo_no_vacio :
    (∀ s : List Char, s.length ≤ 100 →
      parseLinea (['M', ','] ++ s) = parseLinea (['M', ',', ','] ++ s))
    ∧ (parseLinea ['M', ',', ',', '5']).frame = some (.map 5)
    ∧ (parseLinea ['M', ',', '2', ',', '3']).frame = some (.map 2) := by
  refine ⟨?_, by decide, by decide⟩
  intro s hs
  have ht1 : (['M', ','] ++ s).take 127 = ['M', ','] ++ s :=
    List.take_of_length_le (by simp; omega)
  have ht2 : (['M', ',', ','] ++ s).take 127 = ['M', ',', ','] ++ s :=
    List.take_of_length_le (by simp; omega)
  have hM : isSpaceC 'M' = false := by decide
  have hcom : isSpaceC ',' = false := by decide
  have htr1 : trimC (['M', ','] ++ s) = 'M' :: ',' :: trimDer s := by
    unfold trimC
    rw [show (['M', ','] ++ s) = 'M' :: ',' :: s from rfl,
      trimIzq_cons_of_not_space _ _ hM,
      trimDer_cons_of_not_space _ _ hM, trimDer_cons_of_not_space _ _ hcom]
  have htr2 : trimC (['M', ',', ','] ++ s) = 'M' :: ',' :: ',' :: trimDer s := by
    unfold trimC
    rw [show (['M', ',', ','] ++ s) = 'M' :: ',' :: ',' :: s from rfl,
      trimIzq_cons_of_not_space _ _ hM,
      trimDer_cons_of_not_space _ _ hM, trimDer_cons_of_not_space _ _ hcom,
      trimDer_cons_of_not_space _ _ hcom]
  unfold parseLinea
  rw [ht1, ht2, htr1, htr2]
  unfold parseBuffer
  rw [if_neg (by simp), if_neg (by simp)]
  rw [tokeniza_m_coma, show tokeniza ('M' :: ',' :: ',' :: trimDer s)
      = ['M'] :: tokAux (',' :: trimDer s) [] from tokeniza_m_coma _,
    tokAux_coma_nil]

/-- Witness for the universal part of `parse_m_campo_no_vacio`:
`M,5` and `M,,5` parse identically. -/
theorem parse_m_campo_no_vacio_witness :
    parseLinea (['M', ','] ++ ['5']) = parseLinea (['M', ',', ','] ++ ['5']) :=
  parse_m_campo_no_vacio.1 ['5'] (by decide)

/-- C7: a line that is empty or consists only of whitespace parses to no frame
and no diagnostic, and leaves the engine state unchanged. -/
theorem linea_en_blanco (l : List Char) (h : ∀ c ∈ l, isSpaceC c = true) :
    parseLinea l = ⟨none, none⟩ ∧ ∀ s : EstadoMotor, procesarLinea l s = s := by
  have htake : ∀ c ∈ l.take 127, isSpaceC c = true :=
    fun c hc => h c ((List.take_sublist 127 l).mem hc)
  have hdrop : trimIzq (l.take 127) = [] := by
    unfold trimIzq
    exact List.dropWhile_eq_nil_iff.mpr htake
  have hp : parseLinea l = ⟨none, none⟩ := by
    unfold parseLinea
    rw [show trimC (l.take 127) = [] from by unfold trimC; rw [hdrop]; rfl]
    rfl
  refine ⟨hp, fun s => ?_⟩
  unfold procesarLinea
  rw [hp]

/-- Witness for `linea_en_blanco` at the whitespace-only line `" \t "`. -/
theorem linea_en_blanco_witness :
    parseLinea [' ', '\t', ' '] = ⟨none, none⟩
    ∧ ∀ s : EstadoMotor, procesarLinea [' ', '\t', ' '] s = s :=
  linea_en_blanco [' ', '\t', ' '] (by decide)

/-- C8: `X,1` yields the unknown-frame-type diagnostic carrying the raw token
`X`, `L,` yields the missing-argument diagnostic, and any line that produces
no frame leaves the state unchanged while the remaining lines are still
processed: a malformed line never aborts the session. -/
theorem linea_malformada_no_aborta :
    parseLinea ['X', ',', '1'] = ⟨none, some (.unknownFrameType ['X'])⟩
    ∧ parseLinea ['L', ','] = ⟨none, some .missingArgument⟩
    ∧ ∀ bad : List Char, (parseLinea bad).frame = none →
        (∀ s : EstadoMotor, procesarLinea bad s = s)
        ∧ ∀ (pre suf : List (List Char)) (s : EstadoMotor),
            procesarLineas (pre ++ bad :: suf) s
              = procesarLineas suf (procesarLineas pre s) := by
  refine ⟨by decide, by decide, ?_⟩
  intro bad h
  have hid : ∀ s : EstadoMotor, procesarLinea bad s = s := by
    intro s
    unfold procesarLinea
    rw [h]
  refine ⟨hid, ?_⟩
  intro pre suf s
  unfold procesarLineas
  rw [List.foldl_append, List.foldl_cons, hid]

/-- Witness for `linea_malformada_no_aborta`: processing continues around the
malformed line `X,1` between two Load lines. -/
theorem linea_malformada_no_aborta_witness :
    procesarLineas ([['L', ',', 'H']] ++ ['X', ',', '1'] :: [['L', ',', 'O']])
        estadoInicial
      = procesarLineas [['L', ',', 'O']]
          (procesarLineas [['L', ',', 'H']] estadoInicial) :=
  (linea_malformada_no_aborta.2.2 ['X', ',', '1'] (by decide)).2
    [['L', ',', 'H']] [['L', ',', 'O']] estadoInicial

/-- Counterexample to C9 as stated: the line `L,5` produces a Load frame
holding the digit `5`, which is neither a letter nor the space symbol. -/
theorem carga_no_letra_contraejemplo :
    (parseLinea ['L', ',', '5']).frame = some (.load '5')
    ∧ '5'.isAlpha = false ∧ ('5' : Char) ≠ ' ' := by
  decide

theorem parseArgCarga_load (a : List Char) (c : Char)
    (h : (parseArgCarga a).frame = some (.load c)) :
    c = ' ' ∨ ∃ tl, trimC a = c :: tl := by
  unfold parseArgCarga at h
  split at h
  · simp only [Option.some.injEq, Trama.load.injEq] at h
    exact Or.inl h.symm
  · split at h
    · simp at h
    · rename_i c0 tl heq
      simp only [Option.some.injEq, Trama.load.injEq] at h
      subst h
      exact Or.inr ⟨tl, heq⟩

theorem parseTokens_un_token (tok : List Char) :
    parseTokens [tok]
      = if (trimC tok).isEmpty then ⟨none, none⟩
        else if trimC tok = ['L'] ∨ trimC tok = ['l'] then
          ⟨none, some .missingArgument⟩
        else if trimC tok = ['M'] ∨ trimC tok = ['m'] then
          ⟨none, some .missingArgument⟩
        else ⟨none, some (.unknownFrameType (trimC tok))⟩ := rfl

theorem parseTokens_dos_tokens (tok a : List Char) (rest2 : List (List Char)) :
    parseTokens (tok :: a :: rest2)
      = if (trimC tok).isEmpty then ⟨none, none⟩
        else if trimC tok = ['L'] ∨ trimC tok = ['l'] then
          parseArgCarga a
        else if trimC tok = ['M'] ∨ trimC tok = ['m'] then
          ⟨some (.map (atoiC (trimC a))), none⟩
        else ⟨none, some (.unknownFrameType (trimC tok))⟩ := rfl

theorem parseTokens_load_shape (ts : List (List Char)) (c : Char)
    (hts : ∀ t ∈ ts, (',' : Char) ∉ t)
    (h : (parseTokens ts).frame = some (.load c)) :
    c = ' ' ∨ (isSpaceC c = false ∧ c ≠ ',') := by
  cases ts with
  | nil => simp [parseTokens] at h
  | cons tok rest =>
    cases rest with
    | nil =>
      rw [parseTokens_un_token] at h
      split_ifs at h
    | cons a rest2 =>
      rw [parseTokens_dos_tokens] at h
      by_cases h1 : (trimC tok).isEmpty = true
      · rw [if_pos h1] at h
        simp at h
      · rw [if_neg h1] at h
        by_cases h2 : trimC tok = ['L'] ∨ trimC tok = ['l']
        · rw [if_pos h2] at h
          rcases parseArgCarga_load a c h with h4 | ⟨tl, htl⟩
          · exact Or.inl h4
          · refine Or.inr ⟨trimC_head_not_space a c tl htl, ?_⟩
            have hmem : c ∈ trimC a := by
              rw [htl]
              exact List.mem_cons_self c tl
            have hina : c ∈ a := mem_trimC a c hmem
            have hna : (',' : Char) ∉ a :=
              hts a (List.mem_cons_of_mem tok (List.mem_cons_self a rest2))
            intro hc
            rw [hc] at hina
            exact hna hina
        · rw [if_neg h2] at h
          by_cases h3 : trimC tok = ['M'] ∨ trimC tok = ['m']
          · rw [if_pos h3] at h
            simp at h
          · rw [if_neg h3] at h
            simp at h

/-- C9 (amended): every Load frame the parser constructs carries either the
space symbol (from the literal word `Space`) or the first character of the
trimmed argument field, which is never whitespace and never a comma but may
be any other character (digits and punctuation included). -/
theorem carga_no_espacio_ni_coma (l : List Char) (c : Char)
    (h : (parseLinea l).frame = some (.load c)) :
    c = ' ' ∨ (isSpaceC c = false ∧ c ≠ ',') := by
  unfold parseLinea parseBuffer at h
  split at h
  · simp at h
  · exact parseTokens_load_shape _ c
      (fun t ht => tokeniza_no_comma _ t ht) h

/-- Witness for `carga_no_espacio_ni_coma` at the line `L,5`. -/
theorem carga_no_espacio_ni_coma_witness :
    ('5' : Char) = ' ' ∨ (isSpaceC '5' = false ∧ ('5' : Char) ≠ ',') :=
  carga_no_espacio_ni_coma ['L', ',', '5'] '5' (by decide)

theorem parseTokens_L_arg_vacio (tok a : List Char) (rest : List (List Char))
    (hL : trimC tok = ['L'] ∨ trimC tok = ['l']) (ha : trimC a = []) :
    parseTokens (tok :: a :: rest) = ⟨none, none⟩ := by
  rw [parseTokens_dos_tokens]
  rcases hL with hL | hL <;>
    simp [parseArgCarga, hL, ha, primeroEs]

/-- C10: a Load line whose argument field trims to the empty string while a
later comma-separated field still holds text (such as `L, ,X`) is rejected
with no frame and no parser diagnostic; the later field is never used as the
payload. -/
theorem carga_arg_vacio_rechazada :
    (∀ (l tok a : List Char) (rest : List (List Char)),
      tokeniza (trimC (l.take 127)) = tok :: a :: rest →
      (trimC tok = ['L'] ∨ trimC tok = ['l']) →
      trimC a = [] →
      parseLinea l = ⟨none, none⟩)
    ∧ parseLinea ['L', ',', ' ', ',', 'X'] = ⟨none, none⟩ := by
  constructor
  · intro l tok a rest htk hL ha
    unfold parseLinea parseBuffer
    have hne : ¬(trimC (l.take 127)).isEmpty = true := by
      intro hemp
      rw [List.isEmpty_iff.mp hemp] at htk
      simp [tokeniza, tokAux] at htk
    rw [if_neg hne, htk]
    exact parseTokens_L_arg_vacio tok a rest hL ha
  · decide

/-- Witness for the universal part of `carga_arg_vacio_rechazada` at the
line `L, ,X`. -/
theorem carga_arg_vacio_rechazada_witness :
    parseLinea ['L', ',', ' ', ',', 'X'] = ⟨none, none⟩ :=
  carga_arg_vacio_rechazada.1 ['L', ',', ' ', ',', 'X'] ['L'] [' '] [['X']]
    (by decide) (by decide) (by decide)

end PRT7
